import Mathlib

/-!
A verification development for the demikernel-ci orchestrator.

The Rust sources are shallowly embedded: `src/job.rs` (job compilation),
`src/scheduler.rs` (pool allocation and output collection), `src/worker.rs`
(the per-worker execution loop), `src/runner.rs` (command-line construction
and output post-processing) and `src/main.rs` (trigger-parameter parsing).
Rust `HashMap`s keyed by strings are embedded as association lists in
first-insertion order (a deterministic refinement: every claim below only
depends on per-key content, never on iteration order), `VecDeque`/`Vec` as
`List`, and fallible paths as `Except`/`Option`.
-/

namespace DemikernelCI

/-! ## Data model (`src/action.rs`, `src/task.rs`) -/

/-- Embedding of `Action` from `src/action.rs`: a named command sequence bound to one
worker name, with write-once output. -/
structure Action where
  name : String
  commands : List String
  runs_on : String
  output : Option (List String)
deriving Repr, DecidableEq

/-- Embedding of `Task` from `src/task.rs`: either an action or a barrier carrying a
participant count. -/
inductive Task where
  | action : Action → Task
  | barrier : Nat → Task
deriving Repr, DecidableEq

/-- Embedding of `TaskQueue` from `src/task.rs`: a FIFO of tasks (`push_back` appends at
the right end, `pop_front` removes the head). -/
abbrev TaskQueue := List Task

/-! ## YAML model (the fragment of `yaml_rust` used by `src/job.rs`) -/

/-- The `yaml_rust::Yaml` value shapes reachable through `Job::parse`. -/
inductive Yaml where
  | str : String → Yaml
  | int : Int → Yaml
  | boolean : Bool → Yaml
  | arr : List Yaml → Yaml
  | hashm : List (Yaml × Yaml) → Yaml
  | null : Yaml
  | badValue : Yaml

/-- Embedding of `Yaml::as_str`: `Some` only on the string variant. -/
def Yaml.asStr : Yaml → Option String
  | .str s => some s
  | _ => none

/-- Embedding of `Yaml::as_vec`: `Some` only on the array variant. -/
def Yaml.asVec : Yaml → Option (List Yaml)
  | .arr l => some l
  | _ => none

/-- Embedding of `Yaml::as_hash`: `Some` only on the hash variant. -/
def Yaml.asHash : Yaml → Option (List (Yaml × Yaml))
  | .hashm l => some l
  | _ => none

/-- Embedding of `Hash::get(&Yaml::from_str(k))` for the plain-word keys used by
`Job::parse` (`Yaml::from_str` yields `Yaml::String` for them). -/
def hashGet (k : String) : List (Yaml × Yaml) → Option Yaml
  | [] => none
  | (ky, v) :: rest =>
    match ky with
    | .str s => if s = k then some v else hashGet k rest
    | _ => hashGet k rest

/-- The `yaml_rust` indexing `doc["k"]`: `BadValue` when the receiver is not a
hash or the key is absent. -/
def Yaml.idx (y : Yaml) (k : String) : Yaml :=
  match y with
  | .hashm l => (hashGet k l).getD .badValue
  | _ => .badValue

/-! ## `Job::parse` (`src/job.rs`, lines 101-194) -/

/-- The inner loop of the `commands` parsing in `Job::parse`: every element
of the YAML array must be a string, else the whole entry fails. -/
def parseCommands : List Yaml → Option (List String)
  | [] => some []
  | c :: rest =>
    match c.asStr with
    | some s => (parseCommands rest).map (fun cs => s :: cs)
    | none => none

/-- The entry loop of `Job::parse`: non-hash entries are skipped silently;
a hash with an `action` key is parsed into `Task.action` (bailing on a
non-string name, a missing or non-string `runs-on`, or a missing, non-array
or non-string-element `commands`); otherwise a hash with a `barrier` key
yields `Task.barrier 0`; any other hash is skipped with a warning. -/
def parseTaskList : List Yaml → Except String (List Task)
  | [] => .ok []
  | t :: rest =>
    match t.asHash with
    | none => parseTaskList rest
    | some entry =>
      match hashGet "action" entry with
      | some actionVal =>
        match actionVal.asStr with
        | none => .error "failed to parse action entry"
        | some name =>
          match hashGet "runs-on" entry with
          | none => .error "missing runs-on entry"
          | some runsOnVal =>
            match runsOnVal.asStr with
            | none => .error "failed to parse runs-on entry"
            | some runs_on =>
              match hashGet "commands" entry with
              | none => .error "missing commands entry"
              | some commandsVal =>
                match commandsVal.asVec with
                | none => .error "failed to parse commands entry"
                | some commandsVec =>
                  match parseCommands commandsVec with
                  | none => .error "failed to parse commands entry"
                  | some commands =>
                    (parseTaskList rest).map
                      (fun ts => Task.action ⟨name, commands, runs_on, none⟩ :: ts)
      | none =>
        if (hashGet "barrier" entry).isSome then
          (parseTaskList rest).map (fun ts => Task.barrier 0 :: ts)
        else
          parseTaskList rest

/-- Embedding of `Job::parse` on the first YAML document: fail unless `doc["job"]` is an
array, then parse the entry list. -/
def jobParse (doc : Yaml) : Except String (List Task) :=
  match (doc.idx "job").asVec with
  | none => .error "missing job entry"
  | some l => parseTaskList l

/-- The malformed-action-entry conditions enumerated by the specification:
the entry is a map with an `action` key whose value is not a string, or
whose `runs-on` is missing or not a string, or whose `commands` is missing,
not a list, or has a non-string element. Maps without an `action` key are
never malformed (they are either barriers or skipped). -/
def badActionEntry (t : Yaml) : Bool :=
  match t.asHash with
  | none => false
  | some entry =>
    match hashGet "action" entry with
    | none => false
    | some actionVal =>
      actionVal.asStr.isNone
      || (match hashGet "runs-on" entry with
          | none => true
          | some runsOnVal => runsOnVal.asStr.isNone)
      || (match hashGet "commands" entry with
          | none => true
          | some commandsVal =>
            match commandsVal.asVec with
            | none => true
            | some commandsVec => (parseCommands commandsVec).isNone)

/-! ## `Job::new` (`src/job.rs`, lines 49-81)

The Rust `HashMap<String, TaskQueue>` is embedded as an association list in
first-insertion order; the claims below depend only on per-key content. -/

/-- The queue map of a job under compilation. -/
abbrev QMap := List (String × TaskQueue)

/-- Embedding of `tasks.entry(k).or_insert_with(TaskQueue::default).push_back(t)`:
append to the queue of `k`, creating it when absent. -/
def qAppend (m : QMap) (k : String) (t : Task) : QMap :=
  match m with
  | [] => [(k, [t])]
  | (k0, q) :: rest =>
    if k0 = k then (k0, q ++ [t]) :: rest else (k0, q) :: qAppend rest k t

/-- Lookup of one worker's queue in the map. -/
def qLookup (m : QMap) (k : String) : Option TaskQueue :=
  match m with
  | [] => none
  | (k0, q) :: rest => if k0 = k then some q else qLookup rest k

/-- The mutable state of the compilation loop in `Job::new`: the queue map,
the running action counter `barrier_participants`, and the accumulated
stage-size vector `barrier_participants_`. -/
structure CompState where
  tasks : QMap
  c : Nat
  stages : List Nat
deriving Repr, DecidableEq

/-- One iteration of the `Job::new` loop: an action increments the counter
and is appended to its `runs-on` queue; a barrier entry appends
`Task.barrier c` to every existing queue, pushes `c` onto the stage vector
and resets the counter (the payload of the parsed barrier is ignored). -/
def jobStep (st : CompState) : Task → CompState
  | Task.action a =>
    { st with c := st.c + 1, tasks := qAppend st.tasks a.runs_on (Task.action a) }
  | Task.barrier _ =>
    { tasks := st.tasks.map (fun p => (p.1, p.2 ++ [Task.barrier st.c])),
      c := 0,
      stages := st.stages ++ [st.c] }

/-- Embedding of `Job::new` on an already-parsed entry list: drain the entries in order
through `jobStep`, starting from the empty state. -/
def jobNew (entries : List Task) : CompState :=
  entries.foldl jobStep ⟨[], 0, []⟩

/-- Specification-level description of the barrier-stage-size sequence: one
entry per barrier, holding the count of action entries seen since the
previous barrier (across all worker names). Stated from the spec's words,
to be compared with the `jobNew` artefact. -/
def specStages : List Task → Nat → List Nat
  | [], _ => []
  | Task.action _ :: rest, c => specStages rest (c + 1)
  | Task.barrier _ :: rest, c => c :: specStages rest 0

/-- Returns `true` on `Task.action`. -/
def isActionTask : Task → Bool
  | Task.action _ => true
  | Task.barrier _ => false

/-- The `runs-on` name of an action entry. -/
def runsOnOf : Task → Option String
  | Task.action a => some a.runs_on
  | Task.barrier _ => none

/-- Returns `true` when the entry is an action targeting worker `k`. -/
def targets (k : String) : Task → Bool
  | Task.action a => a.runs_on = k
  | Task.barrier _ => false

/-! ## `Runner::run` command-line construction (`src/runner.rs`, 108-124) -/

/-- The concatenation loop of `Runner::run`: push each command, and push
`" &&"` after it unless the command compares equal to `commands.last()`. -/
def buildCmdline (commands : List String) : String :=
  commands.foldl
    (fun cmdline command =>
      let cmdline := cmdline ++ command
      if command ≠ commands.getLast?.getD "" then cmdline ++ " &&" else cmdline)
    ""

/-! ## String utilities

The embeddings of Rust's `str::split` (single-character separators) and
ASCII `to_uppercase`, written structurally over the character data so that
concrete inputs evaluate inside the kernel. -/

/-- Splitting a character sequence at every separator, keeping empty
pieces, as Rust's `str::split` does (`"a\n\nb"` gives three pieces, `""`
gives one empty piece). -/
def splitCharsOn (p : Char → Bool) : List Char → List (List Char)
  | [] => [[]]
  | c :: rest =>
    if p c then [] :: splitCharsOn p rest
    else
      match splitCharsOn p rest with
      | r :: rs => (c :: r) :: rs
      | [] => [[c]]

/-- Rust's `str::split(sep)` on an embedded string. -/
def strSplit (s : String) (p : Char → Bool) : List String :=
  (splitCharsOn p s.data).map String.mk

/-- Rust's `str::to_uppercase` (the trigger keys are ASCII). -/
def strToUpper (s : String) : String :=
  String.mk (s.data.map Char.toUpper)

/-! ## Trigger-parameter parsing (`src/main.rs`, 95-162) -/

/-- Embedding of `HashMap::insert`: replace the value of an existing key, else add the
binding (first-insertion order). -/
def hmInsert (m : List (String × String)) (k v : String) : List (String × String) :=
  match m with
  | [] => [(k, v)]
  | (k0, v0) :: rest =>
    if k0 = k then (k0, v) :: rest else (k0, v0) :: hmInsert rest k v

/-- Embedding of `HashMap::get`. -/
def hmLookup (m : List (String × String)) (k : String) : Option String :=
  match m with
  | [] => none
  | (k0, v0) :: rest => if k0 = k then some v0 else hmLookup rest k

/-- Embedding of `parse_job_parameters`: split the query on `&`; keep only pairs that
split on `=` into exactly two parts; upper-case the key and insert. -/
def parse_job_parameters (query : String) : List (String × String) :=
  (strSplit query (fun c => c = '&')).foldl
    (fun result pair =>
      let parts := strSplit pair (fun c => c = '=')
      if parts.length = 2 then
        hmInsert result (strToUpper (parts.getD 0 "")) (parts.getD 1 "")
      else result)
    []

/-- The environment construction in `run_job`: every parameter key —
including `JOB` — is prefixed with `Config::ENV_VAR_PREFIX` (the string
`DEMIKERNEL_`). -/
def runJobEnv (query : String) : List (String × String) :=
  (parse_job_parameters query).map (fun p => ("DEMIKERNEL_" ++ p.1, p.2))

/-- The job-path resolution in `run_job`: `format!("{}/{}", job_home,
job_name)` with the job name taken from the `JOB` parameter
(`Config::jobs_home` returns `"jobs"`). -/
def runJobPath (job_home query : String) : Option String :=
  (hmLookup (parse_job_parameters query) "JOB").map
    (fun job_name => job_home ++ "/" ++ job_name)

/-! ## Worker execution and output collection (`src/worker.rs`,
`src/scheduler.rs` lines 54-100)

Worker threads share nothing except the barriers, which only gate timing:
each worker's completed output is a function of its own queue and of the
outcomes of its own action executions. The embedding therefore runs each
worker's loop as a pure function of an outcome oracle `ex : Nat → Option
(List String)` giving the runner result of that worker's `j`-th action
execution (`none` embeds an `ExecutionError`). -/

/-- Embedding of `Worker::run` on success (`src/worker.rs`, 101-129): prefix every line
with `[runs_on][name]` and store the lines as the action's output. -/
def actionWithOutput (a : Action) (lines : List String) : Action :=
  { a with
    output := some (lines.map (fun s => "[" ++ a.runs_on ++ "][" ++ a.name ++ "]" ++ s)) }

/-- The spawned thread body in `Scheduler::run` (lines 61-76): pop tasks in
FIFO order; on an action, execute it and push the completed action onto the
accumulator, aborting the whole loop on failure (`?`); on a barrier, wait
and continue. Returns the completed accumulator and whether the thread
exited with an error. -/
def workerLoop (ex : Nat → Option (List String)) :
    List Task → Nat → List Action → List Action × Bool
  | [], _, completed => (completed, false)
  | Task.action a :: rest, j, completed =>
    match ex j with
    | some res => workerLoop ex rest (j + 1) (completed ++ [actionWithOutput a res])
    | none => (completed, true)
  | Task.barrier _ :: rest, j, completed => workerLoop ex rest j completed

/-- The completed-action list of one worker. -/
def workerCompleted (ex : Nat → Option (List String)) (q : List Task) : List Action :=
  (workerLoop ex q 0 []).1

/-- Specification-level description of a worker's completed actions: run
the queue's actions in order, each completing with its execution outcome,
and stop at the first failing execution, leaving the remainder of the queue
unconsumed. Stated from the spec's words, to be compared with
`workerCompleted`. -/
def specCompleted (ex : Nat → Option (List String)) : List Action → Nat → List Action
  | [], _ => []
  | a :: rest, j =>
    match ex j with
    | some res => actionWithOutput a res :: specCompleted ex rest (j + 1)
    | none => []

/-- The actions of a queue, in FIFO order. -/
def actionsOf (q : List Task) : List Action :=
  q.filterMap (fun t => match t with | Task.action a => some a | Task.barrier _ => none)

/-- Embedding of `Worker::collect_output` (`src/worker.rs`, 135-156): walk the completed
FIFO; for every action carrying output, push its lines one by one. -/
def collect_output (completed : List Action) : List String :=
  completed.foldl
    (fun out a =>
      match a.output with
      | some lines => lines.foldl (fun o line => o ++ [line]) out
      | none => out)
    []

/-- The collection loop of `Scheduler::run` (lines 89-100): for each worker
in schedule order, push its collected lines one by one onto the job-level
output. -/
def schedCollect (ws : List (List String)) : List String :=
  ws.foldl (fun jobOut w => w.foldl (fun o line => o ++ [line]) jobOut) []

/-- The per-worker collected line lists of a schedule, in schedule order
(the source spawns with `for i in 0..schedule.len()` and collects with
`for scheduler_worker in &schedule`). The oracle takes the worker's index
in the schedule and that worker's action-execution index. -/
def workerLines (oracle : Nat → Nat → Option (List String))
    (schedule : List TaskQueue) : List (List String) :=
  (List.range schedule.length).map
    (fun i => collect_output (workerCompleted (oracle i) (schedule.getD i [])))

/-- Embedding of `Scheduler::run` after worker spawning (lines 54-129): join all worker
threads (their `Result`s are discarded after logging), collect the output
worker by worker, return the handles, and return `Ok(output)`. -/
def schedRun (oracle : Nat → Nat → Option (List String))
    (schedule : List TaskQueue) : Except String (List String) :=
  Except.ok (schedCollect (workerLines oracle schedule))

/-! ## Pool allocation (`src/scheduler.rs`, lines 102-129 and 161-197)

Runners are embedded by their stable ids; the idle pool is the `Vec` under
the scheduler's mutex, its right end being the `Vec::pop`/`Vec::push`
end. -/

/-- The `while let Some(worker) = guard.pop()` loop of `allocate_runners`,
run on the reversed pool so that `Vec::pop` (the right end) becomes the
list head: pop into `ws`, stopping as soon as `ws.length = n` (checked
after each push, so `n = 0` drains the whole pool). Returns (allocated,
remaining pool with its original orientation). -/
def allocGo : List Nat → Nat → List Nat → List Nat × List Nat
  | [], _, ws => (ws, [])
  | w :: stack, n, ws =>
    if (ws ++ [w]).length = n then (ws ++ [w], stack.reverse)
    else allocGo stack n (ws ++ [w])

/-- The pop loop of `allocate_runners` on the pool as stored (right end =
`Vec::pop` end). -/
def allocLoop (guard : List Nat) (n : Nat) (ws : List Nat) : List Nat × List Nat :=
  allocGo guard.reverse n ws

/-- Embedding of `Scheduler::allocate_runners`: fail when fewer than `num_workers`
handles are idle, else pop handles via `allocLoop`. -/
def allocate_runners (pool : List Nat) (num_workers : Nat) :
    Except String (List Nat × List Nat) :=
  if pool.length < num_workers then .error "not enough runners available"
  else .ok (allocLoop pool num_workers [])

/-- Placement order: `Scheduler::schedule_tasks` pops workers from the right end of the
allocated `Vec`, so the schedule's runner order is the reverse of the
allocation order. -/
def scheduleOrder (allocated : List Nat) : List Nat :=
  allocated.reverse

/-- The release loop at the end of `Scheduler::run` (lines 102-127), on the
success path: for each worker in schedule order, push its reclaimed handle
back onto the idle pool. -/
def releasePool (pool : List Nat) (allocated : List Nat) : List Nat :=
  (scheduleOrder allocated).foldl (fun p r => p ++ [r]) pool

/-! ## `Runner::process_bytes` and stream output (`src/runner.rs`, 196-216)

`String::from_utf8(bytes).unwrap()` panics on invalid UTF-8; the embedding
returns `none` for the panic. `utf8Decode` is the standard UTF-8 validity
check and decoder (rejecting overlong forms, surrogates and code points
above `0x10FFFF`, exactly as `String::from_utf8` does). -/

/-- Decode a byte sequence into Unicode code points; `none` on invalid
UTF-8. -/
def utf8Decode : List Nat → Option (List Nat)
  | [] => some []
  | b :: rest =>
    if b ≤ 0x7F then (utf8Decode rest).map (fun cps => b :: cps)
    else if b < 0xC2 then none
    else if b ≤ 0xDF then
      match rest with
      | c1 :: rest2 =>
        if 0x80 ≤ c1 ∧ c1 ≤ 0xBF then
          (utf8Decode rest2).map (fun cps => ((b - 0xC0) * 0x40 + (c1 - 0x80)) :: cps)
        else none
      | [] => none
    else if b ≤ 0xEF then
      match rest with
      | c1 :: c2 :: rest2 =>
        if (if b = 0xE0 then 0xA0 else 0x80) ≤ c1 ∧ c1 ≤ (if b = 0xED then 0x9F else 0xBF)
            ∧ 0x80 ≤ c2 ∧ c2 ≤ 0xBF then
          (utf8Decode rest2).map
            (fun cps => ((b - 0xE0) * 0x1000 + (c1 - 0x80) * 0x40 + (c2 - 0x80)) :: cps)
        else none
      | _ => none
    else if b ≤ 0xF4 then
      match rest with
      | c1 :: c2 :: c3 :: rest2 =>
        if (if b = 0xF0 then 0x90 else 0x80) ≤ c1 ∧ c1 ≤ (if b = 0xF4 then 0x8F else 0xBF)
            ∧ 0x80 ≤ c2 ∧ c2 ≤ 0xBF ∧ 0x80 ≤ c3 ∧ c3 ≤ 0xBF then
          (utf8Decode rest2).map
            (fun cps =>
              ((b - 0xF0) * 0x40000 + (c1 - 0x80) * 0x1000 + (c2 - 0x80) * 0x40 + (c3 - 0x80)) :: cps)
        else none
      | _ => none
    else none

/-- Build a string from decoded code points. -/
def stringOfCps (cps : List Nat) : String :=
  String.mk (cps.map Char.ofNat)

/-- The string-processing chain of `Runner::process_bytes` after the UTF-8
conversion: wrap the string, split each element on newlines and flatten,
drop empty lines, and prefix each line with the stream tag
(`format!("[{}] {}", stream_name, s)`). -/
def processString (stream_name : String) (s : String) : List String :=
  let output : List String := [s]
  let output := (output.map (fun t => strSplit t (fun c => c = '\n'))).flatten
  let output := output.filter (fun t => !t.isEmpty)
  let output := output.map (fun t => "[" ++ stream_name ++ "] " ++ t)
  output

/-- Embedding of `Runner::process_bytes`: `none` embeds the `unwrap` panic on invalid
UTF-8. -/
def process_bytes (stream_name : String) (bytes : List Nat) : Option (List String) :=
  (utf8Decode bytes).map (fun cps => processString stream_name (stringOfCps cps))

/-! ## Concrete job documents used below -/

/-- A job document whose single action has the given name and `runs-on`
target and a present-but-empty `commands` list. -/
def emptyCommandsDoc (name w : String) : Yaml :=
  .hashm [(.str "job", .arr [.hashm
    [(.str "action", .str name), (.str "runs-on", .str w), (.str "commands", .arr [])]])]

/-! # Theorems -/

/-- The Rust chain in `process_bytes` (wrap, split, flatten, drop empties,
tag) equals a direct split-filter-map. -/
theorem processString_eq (tag s : String) :
    processString tag s =
      ((strSplit s (fun c => c = '\n')).filter (fun l => l ≠ "")).map
        (fun l => "[" ++ tag ++ "] " ++ l) := by
  simp only [processString, List.map_cons, List.map_nil, List.flatten, List.append_nil]
  congr 1
  apply List.filter_congr
  intro t _
  by_cases h : t = ""
  · simp [h, String.isEmpty_iff]
  · have hb : t.isEmpty = false := by
      cases hb2 : t.isEmpty
      · rfl
      · exact absurd ((String.isEmpty_iff t).mp hb2) h
    simp [hb, h]

/-- The stage vector accumulated by the `Job::new` loop from any starting
state: the stages already recorded, followed by the per-barrier action
counts computed from the entry list and the running counter. -/
theorem jobFold_stages (entries : List Task) (st : CompState) :
    (entries.foldl jobStep st).stages = st.stages ++ specStages entries st.c := by
  induction entries generalizing st with
  | nil => simp [specStages]
  | cons e rest ih =>
    cases e with
    | action a => simp [List.foldl_cons, jobStep, ih, specStages]
    | barrier k => simp [List.foldl_cons, jobStep, ih, specStages]

/-- C1: job compilation computes each barrier-stage size as the count of
action entries seen since the previous barrier, across all worker names:
the compiled stage vector equals the spec-level count sequence; processing
a barrier entry appends a `Task.barrier` carrying the current counter to
every existing queue, pushes the counter onto the stage vector and resets
it to zero; processing an action entry leaves the stage vector unchanged. -/
theorem job_barrier_stage_sizes :
    ∀ entries : List Task,
      (jobNew entries).stages = specStages entries 0
      ∧ (∀ (st : CompState) (k : Nat),
          jobStep st (Task.barrier k) =
            ⟨st.tasks.map (fun p => (p.1, p.2 ++ [Task.barrier st.c])), 0,
              st.stages ++ [st.c]⟩)
      ∧ (∀ (st : CompState) (a : Action),
          (jobStep st (Task.action a)).stages = st.stages) := by
  intro entries
  refine ⟨?_, fun st k => rfl, fun st a => rfl⟩
  simpa [jobNew, specStages] using jobFold_stages entries ⟨[], 0, []⟩

/-- Looking a key up after `qAppend`: the appended key's queue grows by the
task (an absent key starts from the empty queue); other keys are
untouched. -/
theorem qLookup_qAppend (m : QMap) (k k2 : String) (t : Task) :
    qLookup (qAppend m k t) k2 =
      if k2 = k then some ((qLookup m k).getD [] ++ [t]) else qLookup m k2 := by
  induction m with
  | nil =>
    simp only [qAppend, qLookup]
    by_cases h : k2 = k
    · subst h; simp
    · have h2 : ¬ k = k2 := fun hk => h hk.symm
      simp [h, h2]
  | cons hd rest ih =>
    obtain ⟨k0, q⟩ := hd
    simp only [qAppend]
    by_cases h0 : k0 = k
    · subst h0
      simp only [if_pos rfl, qLookup]
      by_cases h2 : k2 = k0
      · subst h2
        simp
      · have h2b : ¬ k0 = k2 := fun he => h2 he.symm
        simp [h2, h2b]
    · rw [if_neg h0]
      simp only [qLookup, ih]
      by_cases h2 : k2 = k
      · have hk02 : ¬ k0 = k2 := fun he => h0 (he.trans h2)
        simp [h0, h2, hk02]
      · simp [h2]

/-- A key is absent from the queue map exactly when it is not among the map
keys. -/
theorem qLookup_eq_none_iff (m : QMap) (k : String) :
    qLookup m k = none ↔ k ∉ m.map Prod.fst := by
  induction m with
  | nil => simp [qLookup]
  | cons hd rest ih =>
    obtain ⟨k0, q⟩ := hd
    simp only [qLookup, List.map_cons, List.mem_cons]
    by_cases h : k0 = k
    · subst h; simp
    · have hb : ¬ k = k0 := fun he => h he.symm
      simp [h, hb, ih]

/-- The operation `qAppend` keeps the key list unless the key is new, in which case it is
appended at the end. -/
theorem qKeys_qAppend (m : QMap) (k : String) (t : Task) :
    (qAppend m k t).map Prod.fst =
      if k ∈ m.map Prod.fst then m.map Prod.fst else m.map Prod.fst ++ [k] := by
  induction m with
  | nil => simp [qAppend]
  | cons hd rest ih =>
    obtain ⟨k0, q⟩ := hd
    simp only [qAppend]
    by_cases h : k0 = k
    · subst h; simp
    · have hb : ¬ k = k0 := fun he => h he.symm
      simp only [if_neg h, List.map_cons, ih, List.mem_cons, hb, false_or]
      by_cases hmem : k ∈ rest.map Prod.fst <;> simp [hmem]

/-- Compilation steps never duplicate a key of the queue map. -/
theorem jobStep_keys_nodup (st : CompState) (e : Task)
    (h : (st.tasks.map Prod.fst).Nodup) :
    (((jobStep st e).tasks).map Prod.fst).Nodup := by
  cases e with
  | barrier k => simpa [jobStep, List.map_map, Function.comp] using h
  | action a =>
    simp only [jobStep]
    rw [qKeys_qAppend]
    by_cases hmem : a.runs_on ∈ st.tasks.map Prod.fst
    · simpa [hmem] using h
    · simpa [hmem, List.nodup_append] using h

/-- The key list of the compiled queue map has no duplicates. -/
theorem jobFold_keys_nodup (entries : List Task) (st : CompState)
    (h : (st.tasks.map Prod.fst).Nodup) :
    (((entries.foldl jobStep st).tasks).map Prod.fst).Nodup := by
  induction entries generalizing st with
  | nil => simpa using h
  | cons e rest ih => exact ih _ (jobStep_keys_nodup st e h)

/-- For action-only entry lists, the queue of each worker after folding
from any state: the actions targeting that worker are appended in source
order to its existing queue, and a worker with no prior queue gets one
exactly when some action targets it. -/
theorem jobFold_qLookup (entries : List Task) (st : CompState) (k : String)
    (hall : entries.all isActionTask = true) :
    (∀ q, qLookup st.tasks k = some q →
        qLookup ((entries.foldl jobStep st).tasks) k =
          some (q ++ entries.filter (targets k)))
    ∧ (qLookup st.tasks k = none →
        qLookup ((entries.foldl jobStep st).tasks) k =
          (if entries.filter (targets k) = [] then none
           else some (entries.filter (targets k)))) := by
  induction entries generalizing st with
  | nil => constructor <;> intro <;> simp_all
  | cons e rest ih =>
    cases e with
    | barrier b => simp [isActionTask] at hall
    | action a =>
      simp only [List.all_cons, Bool.and_eq_true] at hall
      have ih2 := fun st2 => ih st2 hall.2
      constructor
      · intro q hq
        by_cases h : a.runs_on = k
        · subst h
          have hstep : qLookup ((jobStep st (Task.action a)).tasks) a.runs_on =
              some (q ++ [Task.action a]) := by
            simp [jobStep, qLookup_qAppend, hq]
          have := (ih2 (jobStep st (Task.action a))).1 _ hstep
          simpa [List.foldl_cons, targets, List.filter_cons] using this
        · have hne : ¬ k = a.runs_on := fun hkk => h hkk.symm
          have hstep : qLookup ((jobStep st (Task.action a)).tasks) k =
              some q := by
            simp [jobStep, qLookup_qAppend, hne, hq]
          have := (ih2 (jobStep st (Task.action a))).1 _ hstep
          simpa [List.foldl_cons, targets, List.filter_cons, h] using this
      · intro hq
        by_cases h : a.runs_on = k
        · subst h
          have hstep : qLookup ((jobStep st (Task.action a)).tasks) a.runs_on =
              some [Task.action a] := by
            simp [jobStep, qLookup_qAppend, hq]
          have := (ih2 (jobStep st (Task.action a))).1 _ hstep
          simpa [List.foldl_cons, targets, List.filter_cons] using this
        · have hne : ¬ k = a.runs_on := fun hkk => h hkk.symm
          have hstep : qLookup ((jobStep st (Task.action a)).tasks) k = none := by
            simp [jobStep, qLookup_qAppend, hne, hq]
          have := (ih2 (jobStep st (Task.action a))).2 hstep
          simpa [List.foldl_cons, targets, List.filter_cons, h] using this

/-- An action targeting `k` exists among the entries exactly when `k` is
among the `runs-on` names. -/
theorem filter_targets_ne_nil_iff (entries : List Task) (k : String) :
    entries.filter (targets k) ≠ [] ↔ k ∈ entries.filterMap runsOnOf := by
  rw [Ne, List.filter_eq_nil_iff, List.mem_filterMap]
  constructor
  · intro h
    push_neg at h
    obtain ⟨t, ht, hpt⟩ := h
    cases t with
    | action a =>
      refine ⟨Task.action a, ht, ?_⟩
      simp only [targets, decide_eq_true_eq] at hpt
      simpa [runsOnOf] using hpt
    | barrier b => simp [targets] at hpt
  · rintro ⟨t, ht, hf⟩ hall
    cases t with
    | action a =>
      simp only [runsOnOf, Option.some_inj] at hf
      exact hall _ ht (by simp [targets, hf])
    | barrier b => simp [runsOnOf] at hf

/-- C8: for every job specification consisting only of action entries, job
compilation produces exactly one queue per distinct `runs-on` name, and the
queue of each name holds exactly the actions targeting it, in source
order. -/
theorem job_actions_only_queues (entries : List Task)
    (hall : entries.all isActionTask = true) :
    (jobNew entries).tasks.length = (entries.filterMap runsOnOf).toFinset.card
    ∧ ∀ k : String,
        qLookup (jobNew entries).tasks k =
          (if entries.filter (targets k) = [] then none
           else some (entries.filter (targets k))) := by
  have hlookup : ∀ k, qLookup (jobNew entries).tasks k =
      (if entries.filter (targets k) = [] then none
       else some (entries.filter (targets k))) := by
    intro k
    exact (jobFold_qLookup entries ⟨[], 0, []⟩ k hall).2 (by simp [qLookup])
  refine ⟨?_, hlookup⟩
  have hnodup : (((jobNew entries).tasks).map Prod.fst).Nodup :=
    jobFold_keys_nodup entries ⟨[], 0, []⟩ (by simp)
  have hmem : ∀ k, k ∈ ((jobNew entries).tasks).map Prod.fst ↔
      k ∈ entries.filterMap runsOnOf := by
    intro k
    rw [← not_iff_not, ← qLookup_eq_none_iff, hlookup k,
      ← filter_targets_ne_nil_iff entries k]
    by_cases h : entries.filter (targets k) = [] <;> simp [h]
  have hset : (((jobNew entries).tasks).map Prod.fst).toFinset =
      (entries.filterMap runsOnOf).toFinset := by
    ext k
    simp [List.mem_toFinset, hmem]
  calc (jobNew entries).tasks.length
      = (((jobNew entries).tasks).map Prod.fst).length := by simp
    _ = (((jobNew entries).tasks).map Prod.fst).toFinset.card :=
        (List.toFinset_card_of_nodup hnodup).symm
    _ = (entries.filterMap runsOnOf).toFinset.card := by rw [hset]

/-- Witness for C8: two workers, three actions. -/
theorem job_actions_only_queues_witness :
    ([Task.action ⟨"A", ["a"], "w1", none⟩, Task.action ⟨"B", ["b"], "w2", none⟩,
        Task.action ⟨"C", ["c"], "w1", none⟩].all isActionTask = true)
    ∧ ((jobNew [Task.action ⟨"A", ["a"], "w1", none⟩, Task.action ⟨"B", ["b"], "w2", none⟩,
        Task.action ⟨"C", ["c"], "w1", none⟩]).tasks.length =
          ([Task.action ⟨"A", ["a"], "w1", none⟩, Task.action ⟨"B", ["b"], "w2", none⟩,
            Task.action ⟨"C", ["c"], "w1", none⟩].filterMap runsOnOf).toFinset.card
       ∧ ∀ k : String,
          qLookup (jobNew [Task.action ⟨"A", ["a"], "w1", none⟩,
              Task.action ⟨"B", ["b"], "w2", none⟩,
              Task.action ⟨"C", ["c"], "w1", none⟩]).tasks k =
            (if [Task.action ⟨"A", ["a"], "w1", none⟩, Task.action ⟨"B", ["b"], "w2", none⟩,
                Task.action ⟨"C", ["c"], "w1", none⟩].filter (targets k) = [] then none
             else some ([Task.action ⟨"A", ["a"], "w1", none⟩,
                Task.action ⟨"B", ["b"], "w2", none⟩,
                Task.action ⟨"C", ["c"], "w1", none⟩].filter (targets k)))) :=
  ⟨by decide, job_actions_only_queues _ (by decide)⟩

/-- Mapping over an `Except` preserves exactly the error outcomes. -/
theorem except_map_error_iff (x : Except String (List Task))
    (f : List Task → List Task) :
    (∃ e, x.map f = Except.error e) ↔ (∃ e, x = Except.error e) := by
  cases x <;> simp [Except.map]

/-- The entry loop of `Job::parse` fails exactly when some entry is a
malformed action entry. -/
theorem parseTaskList_error_iff (l : List Yaml) :
    (∃ e, parseTaskList l = Except.error e) ↔ ∃ t ∈ l, badActionEntry t = true := by
  induction l with
  | nil => simp [parseTaskList]
  | cons t rest ih =>
    cases ht : t.asHash with
    | none => simp [parseTaskList, ht, badActionEntry, ih]
    | some entry =>
      cases hav : hashGet "action" entry with
      | some actionVal =>
        cases has : actionVal.asStr with
        | none => simp [parseTaskList, ht, hav, has, badActionEntry]
        | some name =>
          cases hro : hashGet "runs-on" entry with
          | none => simp [parseTaskList, ht, hav, has, hro, badActionEntry]
          | some runsOnVal =>
            cases hrs : runsOnVal.asStr with
            | none => simp [parseTaskList, ht, hav, has, hro, hrs, badActionEntry]
            | some runs_on =>
              cases hcm : hashGet "commands" entry with
              | none => simp [parseTaskList, ht, hav, has, hro, hrs, hcm, badActionEntry]
              | some commandsVal =>
                cases hcv : commandsVal.asVec with
                | none =>
                  simp [parseTaskList, ht, hav, has, hro, hrs, hcm, hcv, badActionEntry]
                | some commandsVec =>
                  cases hpc : parseCommands commandsVec with
                  | none =>
                    simp [parseTaskList, ht, hav, has, hro, hrs, hcm, hcv, hpc,
                      badActionEntry]
                  | some commands =>
                    simp [parseTaskList, ht, hav, has, hro, hrs, hcm, hcv, hpc,
                      badActionEntry, except_map_error_iff, ih]
      | none =>
        by_cases hb : (hashGet "barrier" entry).isSome
        · simp [parseTaskList, ht, hav, hb, badActionEntry, except_map_error_iff, ih]
        · simp [parseTaskList, ht, hav, hb, badActionEntry, ih]

/-- C9: `Job::parse` fails exactly when the top-level `job` list is absent
or some entry is a malformed action entry (non-string action name, missing
or non-string `runs-on`, or missing / non-list / non-string-element
`commands`); every other entry shape — including a map with neither an
`action` nor a `barrier` key — is skipped and never causes an error. -/
theorem jobParse_error_iff (doc : Yaml) :
    (∃ e, jobParse doc = Except.error e) ↔
      ((doc.idx "job").asVec = none
       ∨ ∃ l, (doc.idx "job").asVec = some l ∧ ∃ t ∈ l, badActionEntry t = true) := by
  cases hv : (doc.idx "job").asVec with
  | none => simp [jobParse, hv]
  | some l => simp [jobParse, hv, parseTaskList_error_iff]

/-- Pushing elements one by one onto an accumulator appends the list. -/
theorem foldl_push_eq_append {α : Type} (l : List α) (acc : List α) :
    l.foldl (fun o x => o ++ [x]) acc = acc ++ l := by
  induction l generalizing acc with
  | nil => simp
  | cons x rest ih => simp [ih, List.append_assoc]

/-- The nested collection loops of `Scheduler::run` flatten the per-worker
line lists in order. -/
theorem schedCollect_eq_flatten (ws : List (List String)) :
    schedCollect ws = ws.flatten := by
  have h : ∀ (ws : List (List String)) (acc : List String),
      ws.foldl (fun jobOut w => w.foldl (fun o line => o ++ [line]) jobOut) acc =
        acc ++ ws.flatten := by
    intro ws
    induction ws with
    | nil => simp
    | cons w rest ih =>
      intro acc
      simp only [List.foldl_cons]
      rw [foldl_push_eq_append, ih]
      simp [List.append_assoc]
  simpa using h ws []

/-- The thread loop of `Scheduler::run` computes, from any starting
accumulator and execution index, the spec-level completed-action list:
every action before the first failing execution, completed in queue order,
and nothing at or after the failure. -/
theorem workerLoop_eq_spec (ex : Nat → Option (List String)) (q : List Task)
    (j : Nat) (acc : List Action) :
    (workerLoop ex q j acc).1 = acc ++ specCompleted ex (actionsOf q) j := by
  induction q generalizing j acc with
  | nil => simp [workerLoop, actionsOf, specCompleted]
  | cons t rest ih =>
    cases t with
    | action a =>
      cases hex : ex j with
      | some res =>
        simp [workerLoop, hex, actionsOf, specCompleted, ih, List.append_assoc]
      | none => simp [workerLoop, hex, actionsOf, specCompleted]
    | barrier b => simp [workerLoop, actionsOf, specCompleted, ih]

/-- Any position of a list of line lists contributes a contiguous segment
of the flattening. -/
theorem flatten_getD_split (l : List (List String)) (i : Nat) :
    ∃ pre post, l.flatten = pre ++ l.getD i [] ++ post := by
  induction l generalizing i with
  | nil => exact ⟨[], [], by simp⟩
  | cons w rest ih =>
    cases i with
    | zero => exact ⟨[], rest.flatten, by simp⟩
    | succ n =>
      obtain ⟨pre, post, hp⟩ := ih n
      exact ⟨w ++ pre, post, by simp [hp, List.append_assoc]⟩

/-- The loop of `Worker::collect_output` flattens the per-action output lines in
completion (FIFO) order. -/
theorem collect_output_eq_flatten (completed : List Action) :
    collect_output completed = (completed.map (fun a => a.output.getD [])).flatten := by
  have h : ∀ (completed : List Action) (acc : List String),
      completed.foldl
        (fun out a =>
          match a.output with
          | some lines => lines.foldl (fun o line => o ++ [line]) out
          | none => out) acc =
        acc ++ (completed.map (fun a => a.output.getD [])).flatten := by
    intro completed
    induction completed with
    | nil => simp
    | cons a rest ih =>
      intro acc
      cases ha : a.output with
      | some lines =>
        simp only [List.foldl_cons, ha]
        rw [foldl_push_eq_append, ih]
        simp [ha, List.append_assoc]
      | none =>
        simp only [List.foldl_cons, ha]
        rw [ih]
        simp [ha]
  simpa [collect_output] using h completed []

/-- A member of a list of line lists is a contiguous segment of the
flattening. -/
theorem flatten_of_mem_split {α : Type} (l : List (List α)) (x : List α)
    (hx : x ∈ l) : ∃ pre post, l.flatten = pre ++ x ++ post := by
  induction l with
  | nil => cases hx
  | cons w rest ih =>
    rcases List.mem_cons.mp hx with h | h
    · exact ⟨[], rest.flatten, by simp [h]⟩
    · obtain ⟨pre, post, hp⟩ := ih h
      exact ⟨w ++ pre, post, by simp [hp, List.append_assoc]⟩

/-- C2: once worker spawning is reached, `Scheduler::run` returns `Ok` with
the collected output for every oracle of execution outcomes, failing ones
included; each worker's completed actions are exactly those before its
first failing execution (it consumes nothing after the failure); and every
worker's completed output — in particular that of workers other than a
failing one — appears as a contiguous segment of the returned output. -/
theorem scheduler_run_failure_isolation :
    ∀ (oracle : Nat → Nat → Option (List String)) (schedule : List TaskQueue),
      schedRun oracle schedule = Except.ok ((workerLines oracle schedule).flatten)
      ∧ (∀ i, workerCompleted (oracle i) (schedule.getD i []) =
          specCompleted (oracle i) (actionsOf (schedule.getD i [])) 0)
      ∧ (∀ i, ∃ pre post,
          (workerLines oracle schedule).flatten =
            pre ++ collect_output (workerCompleted (oracle i) (schedule.getD i [])) ++ post) := by
  intro oracle schedule
  refine ⟨?_, ?_, ?_⟩
  · simp [schedRun, schedCollect_eq_flatten]
  · intro i
    simpa using workerLoop_eq_spec (oracle i) (schedule.getD i []) 0 []
  · intro i
    by_cases hi : i < schedule.length
    · apply flatten_of_mem_split
      simp only [workerLines]
      exact List.mem_map.mpr ⟨i, List.mem_range.mpr hi, rfl⟩
    · have hq : schedule[i]? = none := List.getElem?_eq_none (by omega)
      refine ⟨(workerLines oracle schedule).flatten, [], ?_⟩
      simp [List.getD, hq, workerCompleted, workerLoop, collect_output]

/-- C6: the output returned by a completed run is the concatenation, over
workers in schedule order, of that worker's per-action output lines in the
worker's own FIFO completion order. -/
theorem scheduler_output_order :
    ∀ (oracle : Nat → Nat → Option (List String)) (schedule : List TaskQueue),
      schedRun oracle schedule =
        Except.ok (((List.range schedule.length).map
          (fun i => ((workerCompleted (oracle i) (schedule.getD i [])).map
            (fun a => a.output.getD [])).flatten)).flatten)
      ∧ ∀ completed : List Action,
          collect_output completed =
            (completed.map (fun a => a.output.getD [])).flatten := by
  intro oracle schedule
  refine ⟨?_, collect_output_eq_flatten⟩
  simp [schedRun, schedCollect_eq_flatten, workerLines, collect_output_eq_flatten]

/-- The allocation loop, started with fewer collected workers than needed
and enough stacked handles, pops exactly the missing number of handles off
the stack. -/
theorem allocGo_spec (stack : List Nat) (n : Nat) (ws : List Nat)
    (h1 : ws.length < n) (h2 : n ≤ ws.length + stack.length) :
    allocGo stack n ws =
      (ws ++ stack.take (n - ws.length), (stack.drop (n - ws.length)).reverse) := by
  induction stack generalizing ws with
  | nil => simp at h2; omega
  | cons w stack ih =>
    by_cases hstop : (ws ++ [w]).length = n
    · have hone : n - ws.length = 1 := by simp at hstop; omega
      simp [allocGo, hstop, hone]
    · have h1b : (ws ++ [w]).length < n := by
        simp only [List.length_append, List.length_cons, List.length_nil] at hstop ⊢
        simp only [List.length_cons] at h2
        omega
      have h2b : n ≤ (ws ++ [w]).length + stack.length := by
        simp only [List.length_append, List.length_cons, List.length_nil]
        simp only [List.length_cons] at h2
        omega
      obtain ⟨m, hm⟩ : ∃ m, n - ws.length = m + 1 := ⟨n - ws.length - 1, by omega⟩
      have hstop2 : ¬(ws.length + 1 = n) := by
        intro hc
        exact hstop (by simpa using hc)
      have hm2b : n - (ws.length + 1) = m := by omega
      simp [allocGo, hstop2, ih _ h1b h2b, hm, hm2b]

/-- C7 counterexample: for a job with `num_workers() = 0` and a nonempty
idle pool, `allocate_runners` drains the whole pool — it removes one handle
here where the claim requires exactly zero (the `workers.len() ==
num_workers` break test is checked only after a push, so it never fires
when `num_workers` is zero). -/
theorem allocate_runners_zero_cex :
    allocate_runners [7] 0 = Except.ok ([7], [])
    ∧ ([7] : List Nat).length ≠ 0 := ⟨rfl, by decide⟩

/-- C7 (amended): for every job with at least one worker whose allocation
attempt succeeds (enough idle handles), `Scheduler::run` removes exactly
`job.num_workers()` handles from the idle pool, and on the success path
every checked-out handle is pushed back exactly once — the released pool
equals the original pool. (For a zero-worker job the loop instead drains
the pool and the placement assertion panics.) -/
theorem pool_allocation_safety (pool : List Nat) (n : Nat)
    (h1 : 1 ≤ n) (h2 : n ≤ pool.length) :
    ∃ allocated remaining,
      allocate_runners pool n = Except.ok (allocated, remaining)
      ∧ allocated.length = n
      ∧ remaining.length = pool.length - n
      ∧ releasePool remaining allocated = pool := by
  have hgo := allocGo_spec pool.reverse n [] (by simpa using h1)
    (by simpa using h2)
  refine ⟨pool.reverse.take n, (pool.reverse.drop n).reverse, ?_, ?_, ?_, ?_⟩
  · simp [allocate_runners, Nat.not_lt.mpr h2, allocLoop]
    simpa using hgo
  · simp [List.length_take]
    omega
  · simp [List.length_drop]
  · unfold releasePool scheduleOrder
    rw [foldl_push_eq_append, ← List.reverse_append, List.take_append_drop,
      List.reverse_reverse]

/-- Witness for C7 with a pool of three handles and two workers. -/
theorem pool_allocation_safety_witness :
    (1 ≤ 2 ∧ 2 ≤ ([3, 5, 7] : List Nat).length)
    ∧ ∃ allocated remaining,
        allocate_runners [3, 5, 7] 2 = Except.ok (allocated, remaining)
        ∧ allocated.length = 2
        ∧ remaining.length = ([3, 5, 7] : List Nat).length - 2
        ∧ releasePool remaining allocated = [3, 5, 7] :=
  ⟨⟨by decide, by decide⟩, pool_allocation_safety [3, 5, 7] 2 (by decide) (by decide)⟩

/-- C3 counterexample: a job document whose action entry carries a
present-but-empty `commands` list compiles successfully into an `Action`
with an empty command list — `Job::parse` does not fail on it. -/
theorem jobParse_accepts_empty_commands_cex :
    jobParse (emptyCommandsDoc "A" "w") =
      Except.ok [Task.action ⟨"A", [], "w", none⟩]
    ∧ (jobParse (emptyCommandsDoc "A" "w")).isOk = true := ⟨rfl, rfl⟩

/-- C3 (amended): for every action entry whose `commands` list is present
but empty, `Job::parse` succeeds, producing an `Action` whose command list
is empty (no `ParseError` is raised; `yaml_rust::as_vec` accepts the empty
array and the element loop adds nothing). -/
theorem jobParse_accepts_empty_commands (name w : String) :
    jobParse (emptyCommandsDoc name w) =
      Except.ok [Task.action ⟨name, [], w, none⟩] := rfl

/-- C4 counterexample: for the trigger query `JOB=build&TARGET=release`,
the environment handed to job compilation *does* contain a
`DEMIKERNEL_JOB` entry (the `run_job` loop prefixes every parameter key,
including `JOB`), contradicting the claim that no such entry exists. -/
theorem runJobEnv_contains_job_cex :
    hmLookup (runJobEnv "JOB=build&TARGET=release") "DEMIKERNEL_JOB" = some "build"
    ∧ hmLookup (runJobEnv "JOB=build&TARGET=release") "DEMIKERNEL_JOB" ≠ none := by
  refine ⟨by decide, by decide⟩

/-- C4 (amended): for the trigger query `JOB=build&TARGET=release`, the
environment mapping passed into job compilation contains exactly the two
entries `DEMIKERNEL_JOB = "build"` and `DEMIKERNEL_TARGET = "release"`
(every query key is prefixed, the `JOB` key included), and the resolved job
path is the jobs root directory joined with `build`. -/
theorem runJobEnv_and_path :
    runJobEnv "JOB=build&TARGET=release" =
      [("DEMIKERNEL_JOB", "build"), ("DEMIKERNEL_TARGET", "release")]
    ∧ runJobPath "jobs" "JOB=build&TARGET=release" = some "jobs/build" := by
  refine ⟨by decide, by decide⟩

/-- C5: the command-line concatenation of `Runner::run` compares each
command by value against `commands.last()`, so a repeated command equal to
the final one loses its `" &&"` separator: for `["a", "a"]` the code builds
`"aa"`, not the claimed `"a &&a"`; for pairwise-distinct lists such as
`["a", "b"]` the separator is placed as claimed. -/
theorem buildCmdline_repeated_command_bug :
    buildCmdline ["a", "a"] = "aa"
    ∧ buildCmdline ["a", "a"] ≠ "a &&a"
    ∧ buildCmdline ["a", "b"] = "a &&b" := by
  refine ⟨rfl, by decide, rfl⟩

/-- C10: `Runner::process_bytes` is not total over arbitrary byte input —
on the byte sequence `[0x80]`, which is not valid UTF-8,
`String::from_utf8(...).unwrap()` panics (embedded as `none`); on every
valid UTF-8 input it returns the non-empty lines (split on `'\n'`), each
prefixed with the stream tag. -/
theorem process_bytes_not_total :
    (utf8Decode [0x80] = none ∧ process_bytes "stdout" [0x80] = none)
    ∧ ∀ tag bytes cps, utf8Decode bytes = some cps →
        process_bytes tag bytes =
          some (((strSplit (stringOfCps cps) (fun c => c = '\n')).filter
            (fun l => l ≠ "")).map (fun l => "[" ++ tag ++ "] " ++ l)) := by
  refine ⟨⟨rfl, rfl⟩, ?_⟩
  intro tag bytes cps h
  simp only [process_bytes, h, Option.map_some]
  exact congrArg some (processString_eq tag (stringOfCps cps))

/-- Witness for C10 at the bytes of `"hi\n\nx"`. -/
theorem process_bytes_not_total_witness :
    process_bytes "stdout" [104, 105, 10, 10, 120] =
      some ["[stdout] hi", "[stdout] x"] :=
  (process_bytes_not_total.2 "stdout" [104, 105, 10, 10, 120]
    [104, 105, 10, 10, 120] rfl).trans rfl

end DemikernelCI
